import Mathlib

/-!
Verification of the anchoring service core of the btc-anchoring repository
(`src/service/mod.rs`), a shallow embedding in Lean 4.

The central function is `collect_signatures`, which aggregates per-input
signature contributions from validators into a complete, validator-index
ordered signature set once a threshold is reached for every input of the
proposal.  The Rust `HashMap` is modelled as an association list with
insert-or-replace semantics; the two panic points of the Rust code (the
`unwrap` on the per-input map lookup, and the slice index assignment) are
modelled by an outer `Option`: `none` is a panic, `some r` means the
function returned normally with result `r`.
-/

/-- Bitcoin signature bytes (`Vec<u8>` / `BitcoinSignature` in the source). -/
abbrev BitcoinSignature := List Nat

/-- A signature-contribution message (`TxAnchoringSignature`): input index,
validator index and the signature bytes. -/
structure TxAnchoringSignature where
  input : Nat
  validator : Nat
  signature : BitcoinSignature
deriving DecidableEq

/-- The anchoring configuration (`AnchoringConfig`).  The collector only uses
the number of validators and the majority threshold.  `validators` is the
ordered validator public-key list (keys modelled as naturals);
`majority_count` is the threshold.  Modelled from the spec: the
`majority_count()` accessor of `AnchoringConfig` is not part of the visible
source; per the spec the threshold "comes from the anchoring configuration",
so it is carried as a field, leaving its value arbitrary. -/
structure AnchoringConfig where
  validators : List Nat
  majority_count : Nat
deriving DecidableEq

/-- An anchoring transaction proposal (`AnchoringTx`).  The collector only
uses its ordered set of input indices (`proposal.inputs()`). -/
structure AnchoringTx where
  inputs : List Nat
deriving DecidableEq

/-- Insert-or-replace into an association list: the model of
`HashMap::insert`. -/
def hmInsert (k : Nat) (v : α) : List (Nat × α) → List (Nat × α)
  | [] => [(k, v)]
  | (k', v') :: rest => if k' = k then (k, v) :: rest else (k', v') :: hmInsert k v rest

/-- Association-list lookup: the model of `HashMap::get`. -/
def alookup (k : Nat) : List (Nat × α) → Option α
  | [] => none
  | (k', v) :: rest => if k' = k then some v else alookup k rest

/-- The slot table built by the first loop of `collect_signatures`: for every
input of the proposal, a slot array of length `validators.len()`, all empty
(`vec![None; genesis.validators.len()]`). -/
def initSlots (proposal : AnchoringTx) (genesis : AnchoringConfig) :
    List (Nat × List (Option BitcoinSignature)) :=
  proposal.inputs.foldl
    (fun m i => hmInsert i (List.replicate genesis.validators.length none) m) []

/-- One iteration of the second loop of `collect_signatures`:
`signatures.get_mut(&input).unwrap()` followed by
`signatures_by_input[validator] = Some(...)`.  Returns `none` on either
panic: the `unwrap` of a missing key, or an out-of-bounds index. -/
def setSlot (i v : Nat) (s : BitcoinSignature) :
    List (Nat × List (Option BitcoinSignature)) →
      Option (List (Nat × List (Option BitcoinSignature)))
  | [] => none
  | (k, arr) :: rest =>
    if k = i then
      if v < arr.length then some ((k, arr.set v (some s)) :: rest) else none
    else (setSlot i v s rest).map (fun rest2 => (k, arr) :: rest2)

/-- The second loop of `collect_signatures`: fold every contribution into the
slot table; `none` if any iteration panics. -/
def fillSlots (msgs : List TxAnchoringSignature)
    (m : List (Nat × List (Option BitcoinSignature))) :
    Option (List (Nat × List (Option BitcoinSignature))) :=
  match msgs with
  | [] => some m
  | msg :: rest =>
    match setSlot msg.input msg.validator msg.signature m with
    | none => none
    | some m2 => fillSlots rest m2

/-- The third loop of `collect_signatures`: for every input, drop the empty
slots (`filter_map`), truncate to the majority count (`take`), and return
`None` for the whole proposal if any input's sequence is shorter than the
threshold. -/
def finishSlots (mc : Nat) :
    List (Nat × List (Option BitcoinSignature)) →
      Option (List (Nat × List BitcoinSignature))
  | [] => some []
  | (k, arr) :: rest =>
    let sigs := (arr.filterMap id).take mc
    if sigs.length < mc then none
    else (finishSlots mc rest).map (fun r => hmInsert k sigs r)

/-- The function `collect_signatures` from `src/service/mod.rs`.  The outer `Option` models
panic-freedom (`none` = a panic in the fill loop); the inner `Option` is the
Rust return value: `some r` is `Some(actual_signatures)`, `none` is the
"not yet complete" `None`. -/
def collect_signatures (proposal : AnchoringTx) (genesis : AnchoringConfig)
    (msgs : List TxAnchoringSignature) :
    Option (Option (List (Nat × List BitcoinSignature))) :=
  match fillSlots msgs (initSlots proposal genesis) with
  | none => none
  | some m => some (finishSlots genesis.majority_count m)

/-- The latest contribution's signature for the pair (input `i`, validator
`v`) in a contribution sequence: the last-write-wins fold that the slot table
realizes. -/
def lastSig (msgs : List TxAnchoringSignature) (i v : Nat) : Option BitcoinSignature :=
  msgs.foldl
    (fun acc msg => if msg.input = i ∧ msg.validator = v then some msg.signature else acc)
    none

/-- The cumulative effect on one input's slot array of folding a contribution
sequence: every contribution for input `k` overwrites its validator's slot
(out-of-range writes are no-ops of `List.set`; the fill loop itself panics on
them, so they only arise in intermediate reasoning). -/
def applySigs (k : Nat) (msgs : List TxAnchoringSignature)
    (arr : List (Option BitcoinSignature)) : List (Option BitcoinSignature) :=
  msgs.foldl
    (fun a msg => if msg.input = k then a.set msg.validator (some msg.signature) else a)
    arr

/-- The number of distinct validators that contributed (at least once) for
input `i`. -/
def countV (genesis : AnchoringConfig) (msgs : List TxAnchoringSignature) (i : Nat) : Nat :=
  ((List.range genesis.validators.length).filter
    (fun v => (lastSig msgs i v).isSome)).length

/-- The validator indices whose signatures survive for input `i` in a
completed collection: the contributing validators in ascending index order,
truncated to the majority count. -/
def takenValidators (genesis : AnchoringConfig) (msgs : List TxAnchoringSignature)
    (i : Nat) : List Nat :=
  ((List.range genesis.validators.length).filter
    (fun v => (lastSig msgs i v).isSome)).take genesis.majority_count

/-- The signature sequence produced for input `i` in a completed collection:
latest signatures of the contributing validators in ascending validator-index
order, truncated to the majority count. -/
def collectedSigs (genesis : AnchoringConfig) (msgs : List TxAnchoringSignature)
    (i : Nat) : List BitcoinSignature :=
  ((List.range genesis.validators.length).filterMap (lastSig msgs i)).take
    genesis.majority_count

/-- The two error classes of the service (`ServiceError` in
`src/service/error.rs`, as used by `handle_commit`): a Bitcoin-RPC error or a
local storage error. -/
inductive ServiceError (R S : Type) where
  | Rpc : R → ServiceError R S
  | Storage : S → ServiceError R S
deriving DecidableEq

/-- The function `handle_commit` from `src/service/mod.rs`, parametrized by the result of
the inner `AnchoringHandler::handle_commit` call: an RPC error is logged and
swallowed (`Ok(())`), a storage error propagates unmodified, success passes
through. -/
def handle_commit {R S : Type} (inner : Except (ServiceError R S) Unit) :
    Except S Unit :=
  match inner with
  | Except.error (ServiceError.Rpc _) => Except.ok ()
  | Except.error (ServiceError.Storage e) => Except.error e
  | Except.ok _ => Except.ok ()

/-- The function `state_hash` from `src/service/mod.rs`: for any view it returns
`Ok(Vec::new())`. -/
def state_hash {V H S : Type} (_ : V) : Except S (List H) :=
  Except.ok []

/-- The function `handle_genesis_block` from `src/service/mod.rs`, parametrized by the
result of the `importaddress` RPC call and of `create_genesis_config`.  The
RPC result is `.unwrap()`ed, so an RPC error panics: modelled by the outer
`Option` (`none` = panic).  Otherwise `create_genesis_config(&cfg)?` may
propagate a storage error, and on success the genesis configuration's JSON is
returned. -/
def handle_genesis_block {R S J : Type} (importResult : Except R Unit)
    (createGenesisResult : Except S Unit) (cfgJson : J) : Option (Except S J) :=
  match importResult with
  | Except.error _ => none
  | Except.ok _ =>
    match createGenesisResult with
    | Except.error e => some (Except.error e)
    | Except.ok _ => some (Except.ok cfgJson)

example :
    collect_signatures ⟨[0]⟩ ⟨[7], 1⟩ [⟨0, 0, [1]⟩, ⟨0, 0, [2]⟩] =
      some (some [(0, [[2]])]) := by decide

example :
    collect_signatures ⟨[0]⟩ ⟨[7], 1⟩ [⟨0, 0, [1]⟩, ⟨0, 0, [2]⟩, ⟨0, 0, [1]⟩] =
      some (some [(0, [[1]])]) := by decide

example :
    collect_signatures ⟨[0]⟩ ⟨[7, 8, 9, 10], 3⟩ [⟨0, 0, [1]⟩, ⟨0, 2, [2]⟩] =
      some none := by decide

example :
    collect_signatures ⟨[0]⟩ ⟨[7, 8, 9, 10], 3⟩
      [⟨0, 2, [2]⟩, ⟨0, 0, [1]⟩, ⟨0, 1, [5]⟩] =
      some (some [(0, [[1], [5], [2]])]) := by decide

example :
    collect_signatures ⟨[0]⟩ ⟨[7], 1⟩ [⟨3, 0, [1]⟩] = none := by decide

example :
    collect_signatures ⟨[0]⟩ ⟨[7], 1⟩ [⟨0, 5, [1]⟩] = none := by decide

/-! ### Association-list lemmas -/

theorem alookup_hmInsert (k k' : Nat) (v : α) (m : List (Nat × α)) :
    alookup k' (hmInsert k v m) = if k = k' then some v else alookup k' m := by
  induction m with
  | nil => simp [hmInsert, alookup]
  | cons e rest ih =>
    obtain ⟨k0, v0⟩ := e
    by_cases h0 : k0 = k
    · subst h0
      by_cases h1 : k0 = k' <;> simp [hmInsert, alookup, h1]
    · by_cases h1 : k0 = k'
      · have h2 : ¬k = k' := fun hh => h0 (h1.trans hh.symm)
        have h3 : ¬k' = k := fun hh => h2 hh.symm
        subst h1
        simp [hmInsert, alookup, h2, h3]
      · simp [hmInsert, alookup, h0, h1, ih]

theorem alookup_mem {m : List (Nat × α)} {k : Nat} {v : α}
    (h : alookup k m = some v) : (k, v) ∈ m := by
  induction m with
  | nil => simp [alookup] at h
  | cons e rest ih =>
    obtain ⟨k0, v0⟩ := e
    by_cases h0 : k0 = k
    · subst h0
      simp [alookup] at h
      simp [h]
    · simp [alookup, h0] at h
      exact List.mem_cons_of_mem _ (ih h)

theorem alookup_eq_none_of_not_mem_keys {m : List (Nat × α)} {k : Nat}
    (h : k ∉ m.map Prod.fst) : alookup k m = none := by
  induction m with
  | nil => rfl
  | cons e rest ih =>
    obtain ⟨k0, v0⟩ := e
    simp only [List.map_cons, List.mem_cons, not_or] at h
    have h0 : ¬k0 = k := fun hh => h.1 hh.symm
    simp [alookup, h0, ih h.2]

theorem alookup_isSome_iff_mem_keys (m : List (Nat × α)) (k : Nat) :
    (alookup k m).isSome ↔ k ∈ m.map Prod.fst := by
  induction m with
  | nil => simp [alookup]
  | cons e rest ih =>
    obtain ⟨k0, v0⟩ := e
    by_cases h0 : k0 = k
    · subst h0; simp [alookup]
    · simp [alookup, h0, ih, Ne.symm h0]

theorem alist_ext {m1 m2 : List (Nat × α)}
    (hk : m1.map Prod.fst = m2.map Prod.fst)
    (hnd : (m1.map Prod.fst).Nodup)
    (hl : ∀ k, alookup k m1 = alookup k m2) : m1 = m2 := by
  induction m1 generalizing m2 with
  | nil =>
    cases m2 with
    | nil => rfl
    | cons e t => simp at hk
  | cons e t1 ih =>
    obtain ⟨k0, v0⟩ := e
    cases m2 with
    | nil => simp at hk
    | cons e2 t2 =>
      obtain ⟨k2, v2⟩ := e2
      simp only [List.map_cons, List.cons.injEq] at hk
      obtain ⟨hk0, hkt⟩ := hk
      subst hk0
      have hv : v0 = v2 := by
        have := hl k0
        simpa [alookup] using this
      subst hv
      simp only [List.map_cons, List.nodup_cons] at hnd
      have htl : ∀ k, alookup k t1 = alookup k t2 := by
        intro k
        by_cases hk : k = k0
        · subst hk
          rw [alookup_eq_none_of_not_mem_keys hnd.1,
            alookup_eq_none_of_not_mem_keys (hkt ▸ hnd.1)]
        · have hk' : ¬k0 = k := fun hh => hk hh.symm
          simpa [alookup, hk'] using hl k
      rw [ih hkt hnd.2 htl]

theorem keys_hmInsert (k : Nat) (v : α) (m : List (Nat × α)) :
    (hmInsert k v m).map Prod.fst =
      if k ∈ m.map Prod.fst then m.map Prod.fst else m.map Prod.fst ++ [k] := by
  induction m with
  | nil => simp [hmInsert]
  | cons e rest ih =>
    obtain ⟨k0, v0⟩ := e
    by_cases h0 : k0 = k
    · subst h0; simp [hmInsert]
    · simp only [hmInsert, if_neg h0, List.map_cons, ih, List.mem_cons]
      by_cases hm : k ∈ rest.map Prod.fst
      · simp [hm, Ne.symm h0]
      · simp [hm, Ne.symm h0]

theorem keys_hmInsert_nodup (k : Nat) (v : α) {m : List (Nat × α)}
    (h : (m.map Prod.fst).Nodup) : ((hmInsert k v m).map Prod.fst).Nodup := by
  rw [keys_hmInsert]
  by_cases hm : k ∈ m.map Prod.fst
  · simpa [hm] using h
  · simp only [if_neg hm]
    exact List.Nodup.append h (List.nodup_singleton k) (by simpa using hm)

/-! ### The fill loop -/

theorem setSlot_isSome_iff (i v : Nat) (s : BitcoinSignature)
    (m : List (Nat × List (Option BitcoinSignature))) :
    (setSlot i v s m).isSome ↔
      ∃ arr, alookup i m = some arr ∧ v < arr.length := by
  induction m with
  | nil => simp [setSlot, alookup]
  | cons e rest ih =>
    obtain ⟨k0, arr0⟩ := e
    by_cases h0 : k0 = i
    · subst h0
      by_cases h1 : v < arr0.length <;> simp [setSlot, alookup, h1]
    · simp [setSlot, alookup, h0, ih]

theorem alookup_setSlot {i v : Nat} {s : BitcoinSignature}
    {m m' : List (Nat × List (Option BitcoinSignature))}
    (h : setSlot i v s m = some m') (k : Nat) :
    alookup k m' =
      if i = k then (alookup i m).map (fun arr => arr.set v (some s))
      else alookup k m := by
  induction m generalizing m' with
  | nil => simp [setSlot] at h
  | cons e rest ih =>
    obtain ⟨k0, arr0⟩ := e
    by_cases h0 : k0 = i
    · subst h0
      by_cases h1 : v < arr0.length
      · simp [setSlot, h1] at h
        subst h
        by_cases h2 : k0 = k <;> simp [alookup, h2]
      · simp [setSlot, h1] at h
    · simp only [setSlot, if_neg h0] at h
      cases hrest : setSlot i v s rest with
      | none => rw [hrest] at h; simp at h
      | some rest2 =>
        rw [hrest] at h
        simp at h
        subst h
        by_cases h2 : k0 = k
        · subst h2
          have h3 : ¬i = k0 := fun hh => h0 hh.symm
          simp [alookup, h3]
        · simp [alookup, h0, h2, ih hrest]

theorem keys_setSlot {i v : Nat} {s : BitcoinSignature}
    {m m' : List (Nat × List (Option BitcoinSignature))}
    (h : setSlot i v s m = some m') :
    m'.map Prod.fst = m.map Prod.fst := by
  induction m generalizing m' with
  | nil => simp [setSlot] at h
  | cons e rest ih =>
    obtain ⟨k0, arr0⟩ := e
    by_cases h0 : k0 = i
    · subst h0
      by_cases h1 : v < arr0.length
      · simp [setSlot, h1] at h
        subst h
        simp
      · simp [setSlot, h1] at h
    · simp only [setSlot, if_neg h0] at h
      cases hrest : setSlot i v s rest with
      | none => rw [hrest] at h; simp at h
      | some rest2 =>
        rw [hrest] at h
        simp at h
        subst h
        simp [ih hrest]

theorem good_setSlot {i v : Nat} {s : BitcoinSignature}
    {m m' : List (Nat × List (Option BitcoinSignature))}
    (h : setSlot i v s m = some m') (k w : Nat) :
    (∃ arr, alookup k m' = some arr ∧ w < arr.length) ↔
      (∃ arr, alookup k m = some arr ∧ w < arr.length) := by
  rw [alookup_setSlot h k]
  by_cases h0 : i = k
  · subst h0
    cases halook : alookup i m with
    | none => simp
    | some arr => simp [List.length_set]
  · simp [h0]

theorem fillSlots_isSome_iff (msgs : List TxAnchoringSignature)
    (m : List (Nat × List (Option BitcoinSignature))) :
    (fillSlots msgs m).isSome ↔
      ∀ msg ∈ msgs, ∃ arr, alookup msg.input m = some arr ∧
        msg.validator < arr.length := by
  induction msgs generalizing m with
  | nil => simp [fillSlots]
  | cons msg rest ih =>
    cases hset : setSlot msg.input msg.validator msg.signature m with
    | none =>
      have hbad : ¬∃ arr, alookup msg.input m = some arr ∧
          msg.validator < arr.length := by
        rw [← setSlot_isSome_iff msg.input msg.validator msg.signature m, hset]
        simp
      simp only [fillSlots, hset]
      constructor
      · intro h; simp at h
      · intro h
        exact absurd (h msg (List.mem_cons_self msg rest)) hbad
    | some m2 =>
      simp only [fillSlots, hset]
      rw [ih m2]
      constructor
      · intro h msg' hmem
        rcases List.mem_cons.mp hmem with heq | hmem'
        · rw [heq, ← setSlot_isSome_iff msg.input msg.validator msg.signature m,
            hset]
          simp
        · exact (good_setSlot hset msg'.input msg'.validator).mp (h msg' hmem')
      · intro h msg' hmem'
        exact (good_setSlot hset msg'.input msg'.validator).mpr
          (h msg' (List.mem_cons_of_mem msg hmem'))

theorem alookup_fillSlots {msgs : List TxAnchoringSignature}
    {m m' : List (Nat × List (Option BitcoinSignature))}
    (h : fillSlots msgs m = some m') (k : Nat) :
    alookup k m' = (alookup k m).map (applySigs k msgs) := by
  induction msgs generalizing m with
  | nil =>
    simp only [fillSlots, Option.some.injEq] at h
    subst h
    cases alookup k m <;> simp [applySigs]
  | cons msg rest ih =>
    cases hset : setSlot msg.input msg.validator msg.signature m with
    | none => simp [fillSlots, hset] at h
    | some m2 =>
      simp only [fillSlots, hset] at h
      rw [ih h, alookup_setSlot hset k]
      by_cases h0 : msg.input = k
      · rw [if_pos h0]
        subst h0
        cases alookup msg.input m with
        | none => simp
        | some arr => simp [applySigs]
      · rw [if_neg h0]
        cases alookup k m with
        | none => simp
        | some arr => simp [applySigs, h0]

theorem keys_fillSlots {msgs : List TxAnchoringSignature}
    {m m' : List (Nat × List (Option BitcoinSignature))}
    (h : fillSlots msgs m = some m') :
    m'.map Prod.fst = m.map Prod.fst := by
  induction msgs generalizing m with
  | nil =>
    simp only [fillSlots, Option.some.injEq] at h
    subst h
    rfl
  | cons msg rest ih =>
    cases hset : setSlot msg.input msg.validator msg.signature m with
    | none => simp [fillSlots, hset] at h
    | some m2 =>
      simp only [fillSlots, hset] at h
      rw [ih h, keys_setSlot hset]

/-! ### The initial slot table -/

theorem alookup_foldl_hmInsert (c : α) (l : List Nat) (m0 : List (Nat × α)) (k : Nat) :
    alookup k (l.foldl (fun m i => hmInsert i c m) m0) =
      if k ∈ l then some c else alookup k m0 := by
  induction l generalizing m0 with
  | nil => simp
  | cons i t ih =>
    simp only [List.foldl_cons, ih, alookup_hmInsert, List.mem_cons]
    by_cases h1 : k ∈ t
    · simp [h1]
    · by_cases h2 : i = k
      · simp [h1, h2]
      · have h3 : ¬k = i := fun hh => h2 hh.symm
        simp [h1, h2, h3]

theorem alookup_initSlots (proposal : AnchoringTx) (genesis : AnchoringConfig) (k : Nat) :
    alookup k (initSlots proposal genesis) =
      if k ∈ proposal.inputs
      then some (List.replicate genesis.validators.length none)
      else none := by
  rw [initSlots, alookup_foldl_hmInsert]
  rfl

theorem keys_initSlots_nodup (proposal : AnchoringTx) (genesis : AnchoringConfig) :
    ((initSlots proposal genesis).map Prod.fst).Nodup := by
  rw [initSlots]
  have : ∀ (l : List Nat) (m0 : List (Nat × List (Option BitcoinSignature))),
      (m0.map Prod.fst).Nodup →
      ((l.foldl (fun m i =>
        hmInsert i (List.replicate genesis.validators.length none) m) m0).map
          Prod.fst).Nodup := by
    intro l
    induction l with
    | nil => intro m0 h; exact h
    | cons i t ih =>
      intro m0 h
      exact ih _ (keys_hmInsert_nodup i _ h)
  exact this proposal.inputs [] (by simp)

/-! ### Pointwise characterization of the filled slot arrays -/

theorem applySigs_length (i : Nat) (msgs : List TxAnchoringSignature)
    (arr : List (Option BitcoinSignature)) :
    (applySigs i msgs arr).length = arr.length := by
  induction msgs generalizing arr with
  | nil => rfl
  | cons msg rest ih =>
    simp only [applySigs, List.foldl_cons] at *
    rw [ih]
    by_cases h0 : msg.input = i <;> simp [h0, List.length_set]

theorem applySigs_getElem (i : Nat) (msgs : List TxAnchoringSignature)
    (arr : List (Option BitcoinSignature)) (v : Nat) (a0 : Option BitcoinSignature)
    (h : arr[v]? = some a0) :
    (applySigs i msgs arr)[v]? =
      some (msgs.foldl
        (fun acc msg =>
          if msg.input = i ∧ msg.validator = v then some msg.signature else acc) a0) := by
  induction msgs generalizing arr a0 with
  | nil => simpa [applySigs] using h
  | cons msg rest ih =>
    have hv : v < arr.length := (List.getElem?_eq_some.mp h).1
    simp only [applySigs, List.foldl_cons] at *
    by_cases hmi : msg.input = i
    · by_cases hvv : msg.validator = v
      · subst hvv
        have h2 : (arr.set msg.validator (some msg.signature))[msg.validator]? =
            some (some msg.signature) := List.getElem?_set_eq_of_lt _ hv
        rw [if_pos hmi]
        rw [ih _ _ h2]
        simp [hmi]
      · have h2 : (arr.set msg.validator (some msg.signature))[v]? = some a0 := by
          rw [List.getElem?_set_ne hvv, h]
        rw [if_pos hmi]
        rw [ih _ _ h2]
        simp [hvv]
    · rw [if_neg hmi]
      rw [ih _ _ h]
      have : ¬(msg.input = i ∧ msg.validator = v) := fun hh => hmi hh.1
      simp [this]

theorem applySigs_replicate (i : Nat) (msgs : List TxAnchoringSignature) (n : Nat) :
    applySigs i msgs (List.replicate n none) =
      (List.range n).map (lastSig msgs i) := by
  apply List.ext_getElem?
  intro v
  by_cases hv : v < n
  · have h0 : (List.replicate n (none : Option BitcoinSignature))[v]? = some none := by
      rw [List.getElem?_replicate, if_pos hv]
    rw [applySigs_getElem i msgs _ v none h0, List.getElem?_map,
      List.getElem?_range hv]
    rfl
  · have h1 : (applySigs i msgs (List.replicate n none)).length ≤ v := by
      rw [applySigs_length, List.length_replicate]
      omega
    have h2 : ((List.range n).map (lastSig msgs i)).length ≤ v := by
      rw [List.length_map, List.length_range]
      omega
    rw [List.getElem?_eq_none h1, List.getElem?_eq_none h2]

/-! ### The truncation loop -/

theorem finishSlots_eq_none_iff (mc : Nat)
    (m : List (Nat × List (Option BitcoinSignature))) :
    finishSlots mc m = none ↔
      ∃ e ∈ m, ((e.2.filterMap id).take mc).length < mc := by
  induction m with
  | nil => simp [finishSlots]
  | cons e rest ih =>
    obtain ⟨k0, arr0⟩ := e
    by_cases h0 : ((arr0.filterMap id).take mc).length < mc
    · rw [show finishSlots mc ((k0, arr0) :: rest) = none by
        simp only [finishSlots]; rw [if_pos h0]]
      constructor
      · intro _
        exact ⟨(k0, arr0), List.mem_cons_self _ _, h0⟩
      · intro _
        rfl
    · rw [show finishSlots mc ((k0, arr0) :: rest) =
          (finishSlots mc rest).map
            (fun r => hmInsert k0 ((arr0.filterMap id).take mc) r) by
        simp only [finishSlots]; rw [if_neg h0]]
      rw [Option.map_eq_none', ih]
      constructor
      · rintro ⟨e, he, hlt⟩
        exact ⟨e, List.mem_cons_of_mem _ he, hlt⟩
      · rintro ⟨e, he, hlt⟩
        rcases List.mem_cons.mp he with heq | hmem
        · exfalso
          rw [heq] at hlt
          exact h0 hlt
        · exact ⟨e, hmem, hlt⟩

theorem alookup_finishSlots {mc : Nat}
    {m : List (Nat × List (Option BitcoinSignature))}
    {r : List (Nat × List BitcoinSignature)}
    (h : finishSlots mc m = some r) (k : Nat) :
    alookup k r = (alookup k m).map (fun arr => (arr.filterMap id).take mc) := by
  induction m generalizing r with
  | nil =>
    simp only [finishSlots, Option.some.injEq] at h
    subst h
    rfl
  | cons e rest ih =>
    obtain ⟨k0, arr0⟩ := e
    by_cases h0 : ((arr0.filterMap id).take mc).length < mc
    · rw [show finishSlots mc ((k0, arr0) :: rest) = none by
        simp only [finishSlots]; rw [if_pos h0]] at h
      exact absurd h (by simp)
    · rw [show finishSlots mc ((k0, arr0) :: rest) =
          (finishSlots mc rest).map
            (fun r => hmInsert k0 ((arr0.filterMap id).take mc) r) by
        simp only [finishSlots]; rw [if_neg h0]] at h
      cases hrest : finishSlots mc rest with
      | none => rw [hrest] at h; simp at h
      | some r0 =>
        rw [hrest] at h
        simp at h
        subst h
        rw [alookup_hmInsert]
        by_cases h2 : k0 = k
        · subst h2
          simp [alookup]
        · simp [alookup, h2, ih hrest]

theorem alookup_of_mem_nodup {m : List (Nat × α)} {e : Nat × α}
    (hnd : (m.map Prod.fst).Nodup) (hm : e ∈ m) :
    alookup e.1 m = some e.2 := by
  induction m with
  | nil => simp at hm
  | cons e0 rest ih =>
    obtain ⟨k0, v0⟩ := e0
    simp only [List.map_cons, List.nodup_cons] at hnd
    rcases List.mem_cons.mp hm with heq | hmem
    · subst heq
      simp [alookup]
    · have hk : ¬k0 = e.1 := by
        intro hh
        apply hnd.1
        rw [hh]
        exact List.mem_map_of_mem Prod.fst hmem
      simp [alookup, hk, ih hnd.2 hmem]

/-! ### Characterization of `collect_signatures` -/

theorem collect_isSome_iff (proposal : AnchoringTx) (genesis : AnchoringConfig)
    (msgs : List TxAnchoringSignature) :
    (collect_signatures proposal genesis msgs).isSome ↔
      ∀ msg ∈ msgs, msg.input ∈ proposal.inputs ∧
        msg.validator < genesis.validators.length := by
  have hgood : ∀ msg : TxAnchoringSignature,
      ((∃ arr, alookup msg.input (initSlots proposal genesis) = some arr ∧
        msg.validator < arr.length) ↔
      (msg.input ∈ proposal.inputs ∧
        msg.validator < genesis.validators.length)) := by
    intro msg
    rw [alookup_initSlots]
    by_cases hmem : msg.input ∈ proposal.inputs
    · simp [hmem, List.length_replicate]
    · simp [hmem]
  constructor
  · intro h msg hmem
    have h2 : (fillSlots msgs (initSlots proposal genesis)).isSome := by
      unfold collect_signatures at h
      cases hf : fillSlots msgs (initSlots proposal genesis) with
      | none => rw [hf] at h; simp at h
      | some m => simp
    exact (hgood msg).mp ((fillSlots_isSome_iff msgs _).mp h2 msg hmem)
  · intro h
    have h2 : (fillSlots msgs (initSlots proposal genesis)).isSome :=
      (fillSlots_isSome_iff msgs _).mpr
        (fun msg hmem => (hgood msg).mpr (h msg hmem))
    unfold collect_signatures
    cases hf : fillSlots msgs (initSlots proposal genesis) with
    | none => rw [hf] at h2; simp at h2
    | some m => simp

theorem collect_some_alookup {proposal : AnchoringTx} {genesis : AnchoringConfig}
    {msgs : List TxAnchoringSignature} {r : List (Nat × List BitcoinSignature)}
    (h : collect_signatures proposal genesis msgs = some (some r)) (k : Nat) :
    alookup k r =
      if k ∈ proposal.inputs then some (collectedSigs genesis msgs k) else none := by
  unfold collect_signatures at h
  cases hf : fillSlots msgs (initSlots proposal genesis) with
  | none => rw [hf] at h; simp at h
  | some m =>
    rw [hf] at h
    simp only [Option.some.injEq] at h
    rw [alookup_finishSlots h k, alookup_fillSlots hf k, alookup_initSlots]
    by_cases hmem : k ∈ proposal.inputs
    · rw [if_pos hmem, if_pos hmem]
      simp only [Option.map_some', Option.some.injEq]
      rw [applySigs_replicate, collectedSigs, List.filterMap_map]
      rfl
    · rw [if_neg hmem, if_neg hmem]
      rfl

theorem length_filterMap_isSome (f : α → Option β) (l : List α) :
    (l.filterMap f).length = (l.filter (fun a => (f a).isSome)).length := by
  induction l with
  | nil => rfl
  | cons a t ih =>
    cases hfa : f a <;>
      simp [List.filterMap_cons, List.filter_cons, hfa, ih]

theorem collectedSigs_length_lt_iff (genesis : AnchoringConfig)
    (msgs : List TxAnchoringSignature) (i : Nat) :
    (collectedSigs genesis msgs i).length < genesis.majority_count ↔
      countV genesis msgs i < genesis.majority_count := by
  rw [collectedSigs, countV, List.length_take, length_filterMap_isSome]
  omega

theorem fill_entry_char {proposal : AnchoringTx} {genesis : AnchoringConfig}
    {msgs : List TxAnchoringSignature}
    {m : List (Nat × List (Option BitcoinSignature))}
    (hf : fillSlots msgs (initSlots proposal genesis) = some m) (i : Nat) :
    alookup i m =
      if i ∈ proposal.inputs
      then some ((List.range genesis.validators.length).map (lastSig msgs i))
      else none := by
  rw [alookup_fillSlots hf i, alookup_initSlots]
  by_cases hmem : i ∈ proposal.inputs
  · rw [if_pos hmem, if_pos hmem, Option.map_some', applySigs_replicate]
  · rw [if_neg hmem, if_neg hmem]
    rfl

theorem mapLastSig_short_iff (genesis : AnchoringConfig)
    (msgs : List TxAnchoringSignature) (i : Nat) :
    (((((List.range genesis.validators.length).map (lastSig msgs i)).filterMap
        id).take genesis.majority_count).length < genesis.majority_count) ↔
      countV genesis msgs i < genesis.majority_count := by
  rw [List.filterMap_map]
  have hco : (id ∘ lastSig msgs i) = lastSig msgs i := rfl
  rw [hco, List.length_take, length_filterMap_isSome, countV]
  omega

theorem collect_inner_isSome_iff {proposal : AnchoringTx} {genesis : AnchoringConfig}
    {msgs : List TxAnchoringSignature}
    {o : Option (List (Nat × List BitcoinSignature))}
    (h : collect_signatures proposal genesis msgs = some o) :
    o.isSome ↔ ∀ i ∈ proposal.inputs,
      genesis.majority_count ≤ countV genesis msgs i := by
  unfold collect_signatures at h
  cases hf : fillSlots msgs (initSlots proposal genesis) with
  | none => rw [hf] at h; simp at h
  | some m =>
    rw [hf] at h
    simp only [Option.some.injEq] at h
    subst h
    rw [← Option.ne_none_iff_isSome, Ne, finishSlots_eq_none_iff]
    have hnd : (m.map Prod.fst).Nodup := by
      rw [keys_fillSlots hf]
      exact keys_initSlots_nodup proposal genesis
    constructor
    · intro hno i hi
      by_contra hlt
      push_neg at hlt
      apply hno
      refine ⟨(i, (List.range genesis.validators.length).map (lastSig msgs i)),
        alookup_mem ?_, ?_⟩
      · rw [fill_entry_char hf i, if_pos hi]
      · exact (mapLastSig_short_iff genesis msgs i).mpr hlt
    · intro hall
      rintro ⟨e, he, hlt⟩
      have hle := alookup_of_mem_nodup hnd he
      rw [fill_entry_char hf e.1] at hle
      by_cases hmem : e.1 ∈ proposal.inputs
      · rw [if_pos hmem] at hle
        have he2 : e.2 = (List.range genesis.validators.length).map (lastSig msgs e.1) :=
          (Option.some.injEq _ _ ▸ hle).symm
        rw [he2] at hlt
        have := (mapLastSig_short_iff genesis msgs e.1).mp hlt
        exact absurd (hall e.1 hmem) (by omega)
      · rw [if_neg hmem] at hle
        exact Option.noConfusion hle

/-! ### Only the latest contribution per (input, validator) pair matters -/

theorem foldl_lastStep_const {i v : Nat} {l : List TxAnchoringSignature}
    (hx : ∃ x ∈ l, x.input = i ∧ x.validator = v) (a b : Option BitcoinSignature) :
    l.foldl
      (fun acc msg =>
        if msg.input = i ∧ msg.validator = v then some msg.signature else acc) a =
    l.foldl
      (fun acc msg =>
        if msg.input = i ∧ msg.validator = v then some msg.signature else acc) b := by
  induction l generalizing a b with
  | nil => obtain ⟨x, hx1, _⟩ := hx; simp at hx1
  | cons y t ih =>
    simp only [List.foldl_cons]
    by_cases hy : y.input = i ∧ y.validator = v
    · rw [if_pos hy, if_pos hy]
    · rw [if_neg hy, if_neg hy]
      obtain ⟨x, hx1, hx2⟩ := hx
      rcases List.mem_cons.mp hx1 with heq | hmem
      · exact absurd (heq ▸ hx2) hy
      · exact ih ⟨x, hmem, hx2⟩ a b

theorem foldl_lastStep_eq_or (i v : Nat) (l : List TxAnchoringSignature) :
    ∀ a, l.foldl
      (fun acc msg =>
        if msg.input = i ∧ msg.validator = v then some msg.signature else acc) a = a ∨
      ∃ x ∈ l, x.input = i ∧ x.validator = v := by
  induction l with
  | nil => intro a; left; rfl
  | cons y t ih =>
    intro a
    by_cases hy : y.input = i ∧ y.validator = v
    · right
      exact ⟨y, List.mem_cons_self y t, hy⟩
    · simp only [List.foldl_cons, if_neg hy]
      rcases ih a with heq | hex
      · left; exact heq
      · right
        obtain ⟨x, hx1, hx2⟩ := hex
        exact ⟨x, List.mem_cons_of_mem y hx1, hx2⟩

theorem lastSig_some_mem {msgs : List TxAnchoringSignature} {i v : Nat}
    {s : BitcoinSignature} (h : lastSig msgs i v = some s) :
    ∃ x ∈ msgs, x.input = i ∧ x.validator = v := by
  rcases foldl_lastStep_eq_or i v msgs none with heq | hex
  · rw [lastSig] at h
    rw [heq] at h
    exact Option.noConfusion h
  · exact hex

theorem collect_congr {proposal : AnchoringTx} {genesis : AnchoringConfig}
    {A B : List TxAnchoringSignature}
    (hgood : (∀ m ∈ A, m.input ∈ proposal.inputs ∧
        m.validator < genesis.validators.length) ↔
      (∀ m ∈ B, m.input ∈ proposal.inputs ∧
        m.validator < genesis.validators.length))
    (hlast : ∀ i v, lastSig A i v = lastSig B i v) :
    collect_signatures proposal genesis A = collect_signatures proposal genesis B := by
  cases hA : fillSlots A (initSlots proposal genesis) with
  | none =>
    have h1 : ¬(collect_signatures proposal genesis A).isSome := by
      unfold collect_signatures
      rw [hA]
      simp
    rw [collect_isSome_iff, hgood, ← collect_isSome_iff] at h1
    have hBn : fillSlots B (initSlots proposal genesis) = none := by
      unfold collect_signatures at h1
      cases hB : fillSlots B (initSlots proposal genesis) with
      | none => rfl
      | some mB => rw [hB] at h1; simp at h1
    unfold collect_signatures
    rw [hA, hBn]
  | some mA =>
    have h1 : (collect_signatures proposal genesis A).isSome := by
      unfold collect_signatures
      rw [hA]
      simp
    rw [collect_isSome_iff, hgood, ← collect_isSome_iff] at h1
    unfold collect_signatures at h1
    cases hB : fillSlots B (initSlots proposal genesis) with
    | none => rw [hB] at h1; simp at h1
    | some mB =>
      have hmm : mA = mB := by
        apply alist_ext
        · rw [keys_fillSlots hA, keys_fillSlots hB]
        · rw [keys_fillSlots hA]
          exact keys_initSlots_nodup proposal genesis
        · intro k
          rw [fill_entry_char hA k, fill_entry_char hB k]
          have hfk : lastSig A k = lastSig B k := funext fun v => hlast k v
          rw [hfk]
      unfold collect_signatures
      rw [hA, hB, hmm]

/-! ### Auxiliary order/pairing lemmas for the claim theorems -/

theorem forall2_filter_filterMap (f : α → Option β) (l : List α) :
    List.Forall₂ (fun v s => f v = some s)
      (l.filter (fun v => (f v).isSome)) (l.filterMap f) := by
  induction l with
  | nil => exact List.Forall₂.nil
  | cons a t ih =>
    cases hfa : f a with
    | none => simpa [List.filter_cons, List.filterMap_cons, hfa] using ih
    | some b =>
      simp only [List.filter_cons, List.filterMap_cons, hfa, Option.isSome_some,
        if_pos]
      exact List.Forall₂.cons hfa ih

theorem forall2_take {R : α → β → Prop} {as : List α} {bs : List β}
    (h : List.Forall₂ R as bs) : ∀ k, List.Forall₂ R (as.take k) (bs.take k) := by
  induction h with
  | nil => intro k; simp
  | cons ha ht ih =>
    intro k
    cases k with
    | zero => simp
    | succ k2 =>
      simp only [List.take_succ_cons]
      exact List.Forall₂.cons ha (ih k2)

/-! ### Claim theorems -/

/-- C1: `collect_signatures` returns `Some` exactly when every input of the
proposal has at least `majority_count` contributions from distinct
validators; if any input has fewer, the whole result is `None`, never a
partial map containing only the fully signed inputs. -/
theorem collect_complete_iff_majority (proposal : AnchoringTx)
    (genesis : AnchoringConfig) (msgs : List TxAnchoringSignature)
    (res : Option (List (Nat × List BitcoinSignature)))
    (h : collect_signatures proposal genesis msgs = some res) :
    res.isSome = proposal.inputs.all
      (fun i => decide (genesis.majority_count ≤ countV genesis msgs i)) := by
  rw [Bool.eq_iff_iff, collect_inner_isSome_iff h, List.all_eq_true]
  constructor
  · intro hall i hi
    exact decide_eq_true (hall i hi)
  · intro hall i hi
    exact of_decide_eq_true (hall i hi)

theorem collect_complete_iff_majority_witness :
    (some [(0, [[1], [2]])] :
        Option (List (Nat × List BitcoinSignature))).isSome =
      (AnchoringTx.mk [0]).inputs.all
        (fun i => decide ((AnchoringConfig.mk [10, 11, 12] 2).majority_count ≤
          countV (AnchoringConfig.mk [10, 11, 12] 2)
            [⟨0, 0, [1]⟩, ⟨0, 1, [2]⟩] i)) :=
  collect_complete_iff_majority ⟨[0]⟩ ⟨[10, 11, 12], 2⟩
    [⟨0, 0, [1]⟩, ⟨0, 1, [2]⟩] (some [(0, [[1], [2]])]) (by decide)

/-- C2: for every input of a completed collection, the returned signature
sequence is ordered strictly ascending by the validator index of its
contributors, regardless of the order in which the contributions arrived:
there is a strictly increasing validator-index list (`takenValidators`) that
pairs elementwise with the returned signatures, each signature being the
latest contribution of its validator. -/
theorem collect_sigs_ascending_validator_order (proposal : AnchoringTx)
    (genesis : AnchoringConfig) (msgs : List TxAnchoringSignature)
    (r : List (Nat × List BitcoinSignature)) (i : Nat)
    (sigs : List BitcoinSignature)
    (h : collect_signatures proposal genesis msgs = some (some r))
    (hi : alookup i r = some sigs) :
    List.Pairwise (· < ·) (takenValidators genesis msgs i) ∧
    List.Forall₂ (fun v s => lastSig msgs i v = some s)
      (takenValidators genesis msgs i) sigs := by
  have hal := collect_some_alookup h i
  by_cases hmem : i ∈ proposal.inputs
  · rw [if_pos hmem] at hal
    rw [hal] at hi
    have hs : collectedSigs genesis msgs i = sigs := by
      injection hi
    subst hs
    constructor
    · have hsub : List.Sublist (takenValidators genesis msgs i)
          (List.range genesis.validators.length) :=
        (List.take_sublist _ _).trans (List.filter_sublist _)
      exact List.Pairwise.sublist hsub (List.pairwise_lt_range _)
    · exact forall2_take
        (forall2_filter_filterMap (lastSig msgs i)
          (List.range genesis.validators.length)) genesis.majority_count
  · rw [if_neg hmem] at hal
    rw [hal] at hi
    exact Option.noConfusion hi

theorem collect_sigs_ascending_validator_order_witness :
    List.Pairwise (· < ·)
      (takenValidators ⟨[10, 11, 12, 13], 3⟩
        [⟨0, 2, [2]⟩, ⟨0, 0, [1]⟩, ⟨0, 1, [5]⟩] 0) ∧
    List.Forall₂
      (fun v s => lastSig [⟨0, 2, [2]⟩, ⟨0, 0, [1]⟩, ⟨0, 1, [5]⟩] 0 v = some s)
      (takenValidators ⟨[10, 11, 12, 13], 3⟩
        [⟨0, 2, [2]⟩, ⟨0, 0, [1]⟩, ⟨0, 1, [5]⟩] 0)
      [[1], [5], [2]] :=
  collect_sigs_ascending_validator_order ⟨[0]⟩ ⟨[10, 11, 12, 13], 3⟩
    [⟨0, 2, [2]⟩, ⟨0, 0, [1]⟩, ⟨0, 1, [5]⟩] [(0, [[1], [5], [2]])] 0
    [[1], [5], [2]] (by decide) (by decide)

/-- C3: `handle_commit` swallows RPC errors of the inner handler (returning
`Ok(())` so an RPC failure never propagates as a block-commit failure), and
it returns `Err` exactly when the inner handler failed with a storage error,
which it propagates unmodified. -/
theorem handle_commit_rpc_ok_storage_propagated (R S : Type) (e : R) (s : S)
    (inner : Except (ServiceError R S) Unit) :
    handle_commit (Except.error (ServiceError.Rpc e) :
      Except (ServiceError R S) Unit) = Except.ok () ∧
    (handle_commit inner = Except.error s ↔
      inner = Except.error (ServiceError.Storage s)) := by
  refine ⟨rfl, ?_⟩
  cases inner with
  | ok u => simp [handle_commit]
  | error err =>
    cases err with
    | Rpc e2 => simp [handle_commit]
    | Storage s2 => simp [handle_commit]

/-- C4: only the last contribution in the sequence for a given
(input, validator) pair affects the result: removing an earlier contribution
`msg` that is superseded by a later one (`m2`, same pair, further down the
sequence) leaves `collect_signatures` unchanged, and the value the slot table
retains for that pair is determined by the suffix after `msg` alone. -/
theorem collect_overwritten_contribution_ignored (proposal : AnchoringTx)
    (genesis : AnchoringConfig) (l1 l2 : List TxAnchoringSignature)
    (msg m2 : TxAnchoringSignature) (hm2 : m2 ∈ l2)
    (hpair : m2.input = msg.input ∧ m2.validator = msg.validator) :
    collect_signatures proposal genesis (l1 ++ msg :: l2) =
      collect_signatures proposal genesis (l1 ++ l2) ∧
    lastSig (l1 ++ msg :: l2) msg.input msg.validator =
      lastSig l2 msg.input msg.validator := by
  constructor
  · apply collect_congr
    · constructor
      · intro hall m hm
        rcases List.mem_append.mp hm with h1 | h1
        · exact hall m (List.mem_append_left _ h1)
        · exact hall m (List.mem_append_right _ (List.mem_cons_of_mem msg h1))
      · intro hall m hm
        rcases List.mem_append.mp hm with h1 | h1
        · exact hall m (List.mem_append_left _ h1)
        · rcases List.mem_cons.mp h1 with heq | h2
          · subst heq
            have hg := hall m2 (List.mem_append_right _ hm2)
            exact ⟨hpair.1 ▸ hg.1, hpair.2 ▸ hg.2⟩
          · exact hall m (List.mem_append_right _ h2)
    · intro i v
      rw [lastSig, lastSig, List.foldl_append, List.foldl_append,
        List.foldl_cons]
      by_cases hp : msg.input = i ∧ msg.validator = v
      · exact foldl_lastStep_const ⟨m2, hm2, hpair.1.trans hp.1,
          hpair.2.trans hp.2⟩ _ _
      · rw [if_neg hp]
  · rw [lastSig, List.foldl_append, List.foldl_cons]
    have hp : msg.input = msg.input ∧ msg.validator = msg.validator := ⟨rfl, rfl⟩
    rw [if_pos hp]
    exact foldl_lastStep_const ⟨m2, hm2, hpair⟩ _ _

theorem collect_overwritten_contribution_ignored_witness :
    (collect_signatures ⟨[0]⟩ ⟨[7, 8], 1⟩
        ([] ++ (⟨0, 0, [1]⟩ : TxAnchoringSignature) :: [⟨0, 0, [2]⟩]) =
      collect_signatures ⟨[0]⟩ ⟨[7, 8], 1⟩ ([] ++ [⟨0, 0, [2]⟩])) ∧
    lastSig ([] ++ (⟨0, 0, [1]⟩ : TxAnchoringSignature) :: [⟨0, 0, [2]⟩])
        (TxAnchoringSignature.mk 0 0 [1]).input
        (TxAnchoringSignature.mk 0 0 [1]).validator =
      lastSig [⟨0, 0, [2]⟩] (TxAnchoringSignature.mk 0 0 [1]).input
        (TxAnchoringSignature.mk 0 0 [1]).validator :=
  collect_overwritten_contribution_ignored ⟨[0]⟩ ⟨[7, 8], 1⟩ [] [⟨0, 0, [2]⟩]
    ⟨0, 0, [1]⟩ ⟨0, 0, [2]⟩ (by decide) (by decide)

/-- C5: in a completed collection every input's sequence is exactly the
latest signatures of the contributing validators with the lowest validator
indices (ascending, truncated to the threshold: `collectedSigs`), and its
length is exactly `majority_count`. -/
theorem collect_sigs_eq_lowest_majority (proposal : AnchoringTx)
    (genesis : AnchoringConfig) (msgs : List TxAnchoringSignature)
    (r : List (Nat × List BitcoinSignature)) (i : Nat)
    (h : collect_signatures proposal genesis msgs = some (some r))
    (hi : i ∈ proposal.inputs) :
    alookup i r = some (collectedSigs genesis msgs i) ∧
    (collectedSigs genesis msgs i).length = genesis.majority_count := by
  constructor
  · rw [collect_some_alookup h i, if_pos hi]
  · have hcnt : genesis.majority_count ≤ countV genesis msgs i := by
      have h2 := (collect_inner_isSome_iff h).mp (by simp)
      exact h2 i hi
    rw [collectedSigs, List.length_take, length_filterMap_isSome]
    rw [countV] at hcnt
    omega

theorem collect_sigs_eq_lowest_majority_witness :
    alookup 0 [(0, [[1], [5]])] =
      some (collectedSigs ⟨[10, 11, 12], 2⟩
        [⟨0, 2, [2]⟩, ⟨0, 0, [1]⟩, ⟨0, 1, [5]⟩] 0) ∧
    (collectedSigs ⟨[10, 11, 12], 2⟩
      [⟨0, 2, [2]⟩, ⟨0, 0, [1]⟩, ⟨0, 1, [5]⟩] 0).length =
      (AnchoringConfig.mk [10, 11, 12] 2).majority_count :=
  collect_sigs_eq_lowest_majority ⟨[0]⟩ ⟨[10, 11, 12], 2⟩
    [⟨0, 2, [2]⟩, ⟨0, 0, [1]⟩, ⟨0, 1, [5]⟩] [(0, [[1], [5]])] 0
    (by decide) (by decide)

/-- C6 counterexample: appending a second copy of a contribution that is
already present in the sequence can change the result of
`collect_signatures`: if the copied contribution was later overwritten by a
different signature for the same (input, validator) pair, re-appending it
makes it the new latest write, so the collected signature reverts.  One
validator, threshold 1, one input; the sequence holds signatures `[1]` then
`[2]` from the same validator for the same input; re-appending the first
contribution flips the collected signature from `[2]` back to `[1]`. -/
theorem collect_append_duplicate_changes_result :
    (⟨0, 0, [1]⟩ : TxAnchoringSignature) ∈
      ([⟨0, 0, [1]⟩, ⟨0, 0, [2]⟩] : List TxAnchoringSignature) ∧
    collect_signatures ⟨[0]⟩ ⟨[7], 1⟩
        ([⟨0, 0, [1]⟩, ⟨0, 0, [2]⟩] ++ [⟨0, 0, [1]⟩]) ≠
      collect_signatures ⟨[0]⟩ ⟨[7], 1⟩ [⟨0, 0, [1]⟩, ⟨0, 0, [2]⟩] := by
  decide

/-- C6 (amended): appending a second copy of a contribution whose signature
is the latest one in the sequence for its (input, validator) pair leaves the
result of `collect_signatures` unchanged (the same `Option` value with
identical per-input signature sequences); appending a copy of an earlier,
overwritten contribution may change the result. -/
theorem collect_append_latest_idempotent (proposal : AnchoringTx)
    (genesis : AnchoringConfig) (msgs : List TxAnchoringSignature)
    (m : TxAnchoringSignature)
    (h : lastSig msgs m.input m.validator = some m.signature) :
    collect_signatures proposal genesis (msgs ++ [m]) =
      collect_signatures proposal genesis msgs := by
  apply collect_congr
  · constructor
    · intro hall msg hmem
      exact hall msg (List.mem_append_left _ hmem)
    · intro hall msg hmem
      rcases List.mem_append.mp hmem with h1 | h1
      · exact hall msg h1
      · have hm : msg = m := by simpa using h1
        subst hm
        obtain ⟨x, hx, hx2⟩ := lastSig_some_mem h
        have hg := hall x hx
        exact ⟨hx2.1 ▸ hg.1, hx2.2 ▸ hg.2⟩
  · intro i v
    rw [lastSig, lastSig, List.foldl_append, List.foldl_cons, List.foldl_nil]
    by_cases hp : m.input = i ∧ m.validator = v
    · rw [if_pos hp]
      rw [← hp.1, ← hp.2]
      exact h.symm
    · rw [if_neg hp]

theorem collect_append_latest_idempotent_witness :
    collect_signatures ⟨[0]⟩ ⟨[7], 1⟩
        ([⟨0, 0, [1]⟩, ⟨0, 0, [2]⟩] ++ [⟨0, 0, [2]⟩]) =
      collect_signatures ⟨[0]⟩ ⟨[7], 1⟩ [⟨0, 0, [1]⟩, ⟨0, 0, [2]⟩] :=
  collect_append_latest_idempotent ⟨[0]⟩ ⟨[7], 1⟩
    [⟨0, 0, [1]⟩, ⟨0, 0, [2]⟩] ⟨0, 0, [2]⟩ (by decide)

/-- C7: if every contribution names an input of the proposal and a validator
index below the validator-set size, `collect_signatures` is total: neither
the `unwrap` of the per-input map lookup nor the slot-array indexing reaches
its failure branch (the outer `Option` of the model is `some`). -/
theorem collect_no_panic_of_valid (proposal : AnchoringTx)
    (genesis : AnchoringConfig) (msgs : List TxAnchoringSignature)
    (h : ∀ msg ∈ msgs, msg.input ∈ proposal.inputs ∧
      msg.validator < genesis.validators.length) :
    (collect_signatures proposal genesis msgs).isSome :=
  (collect_isSome_iff proposal genesis msgs).mpr h

theorem collect_no_panic_of_valid_witness :
    (collect_signatures ⟨[0, 1]⟩ ⟨[7, 8, 9], 2⟩
      [⟨0, 0, [1]⟩, ⟨1, 2, [2]⟩, ⟨0, 2, [3]⟩]).isSome :=
  collect_no_panic_of_valid ⟨[0, 1]⟩ ⟨[7, 8, 9], 2⟩
    [⟨0, 0, [1]⟩, ⟨1, 2, [2]⟩, ⟨0, 2, [3]⟩] (by decide)

/-- C8: for every storage view, `state_hash` returns `Ok` of an empty list of
hashes: the service contributes nothing to the ledger's Merkle state. -/
theorem state_hash_empty (V H S : Type) (view : V) :
    state_hash view = (Except.ok [] : Except S (List H)) := rfl

/-- C9: if the `importaddress` RPC call fails during `handle_genesis_block`,
the function panics (the RPC result is unwrapped, modelled by the outer
`none`) instead of returning a recoverable outcome or a storage error —
unlike `handle_commit`, which turns an RPC error into `Ok(())`. -/
theorem handle_genesis_block_panics_on_rpc_error (R S J : Type) (e : R)
    (createGenesisResult : Except S Unit) (cfgJson : J) :
    handle_genesis_block (Except.error e) createGenesisResult cfgJson =
        (none : Option (Except S J)) ∧
    handle_commit (Except.error (ServiceError.Rpc e) :
      Except (ServiceError R S) Unit) = Except.ok () :=
  ⟨rfl, rfl⟩

/-- C10: whenever `collect_signatures` returns `Some map`, the key set of the
returned map is exactly the input-index set of the proposal: lookup succeeds
precisely on the proposal's inputs. -/
theorem collect_keys_eq_inputs (proposal : AnchoringTx)
    (genesis : AnchoringConfig) (msgs : List TxAnchoringSignature)
    (r : List (Nat × List BitcoinSignature)) (k : Nat)
    (h : collect_signatures proposal genesis msgs = some (some r)) :
    (alookup k r).isSome = decide (k ∈ proposal.inputs) := by
  rw [collect_some_alookup h k]
  by_cases hmem : k ∈ proposal.inputs
  · simp [hmem]
  · simp [hmem]

theorem collect_keys_eq_inputs_witness :
    ((alookup 0 [(1, [[2]]), (0, [[1]])]).isSome =
      decide (0 ∈ (AnchoringTx.mk [0, 1]).inputs)) ∧
    ((alookup 5 [(1, [[2]]), (0, [[1]])]).isSome =
      decide (5 ∈ (AnchoringTx.mk [0, 1]).inputs)) :=
  ⟨collect_keys_eq_inputs ⟨[0, 1]⟩ ⟨[7], 1⟩ [⟨0, 0, [1]⟩, ⟨1, 0, [2]⟩]
      [(1, [[2]]), (0, [[1]])] 0 (by decide),
    collect_keys_eq_inputs ⟨[0, 1]⟩ ⟨[7], 1⟩ [⟨0, 0, [1]⟩, ⟨1, 0, [2]⟩]
      [(1, [[2]]), (0, [[1]])] 5 (by decide)⟩
